import Mathlib

/-!
# A Bloom filter (`bloom/bloom.c`)

Shallow embedding of the two hash functions `s_djb` and `s_murmur3`, of the
filter record `struct _bloom_t`, and of `bloom_new`, `bloom_set`,
`bloom_isset` and `bloom_fp`, followed by the properties proved about them.

Conventions of the embedding.

* `unsigned int` and `uint32_t` values are natural numbers below `2 ^ 32`; every
  operation that can leave that range is followed by `% 2 ^ 32`.
* A key (`const char *str, size_t len`) is the list of its `len` bytes, each a
  `Fin 256`.  Whether plain `char` is signed is implementation-defined in C, so
  the functions that read the key through a `char` lvalue take that choice as
  the parameter `char_signed` (`true` on x86-64, `false` on AArch64 Linux).
* `uint32_t` loads through `head` are little-endian.
* `int` is 4 bytes and a pointer is 8 bytes (LP64).
* `insist(...)` aborts the program when its condition is false: a function
  whose `insist` fails returns `none`.
* `double` expressions (`round`, `log`) are read in exact real arithmetic.
* Keys are shorter than `2 ^ 33` bytes, so that the `int` counter of the block
  loop of `s_murmur3` does not overflow.
-/

namespace Bloom

/-! ## Hash functions -/

/-- A key byte. -/
abbrev Byte := Fin 256

/-- Value of `str[i]`, an lvalue of type `char`, after integer promotion to
`int`: where plain `char` is signed a byte `c ≥ 128` is the negative number
`c - 256`. -/
def char_value (char_signed : Bool) (c : Byte) : Int :=
  if char_signed = true ∧ 128 ≤ c.val then (c.val : Int) - 256 else (c.val : Int)

/-- Conversion of an `int` to `unsigned int` (reduction modulo `2 ^ 32`), as the
usual arithmetic conversions do to the `int` operand of `unsigned + int`. -/
def to_uint (x : Int) : Nat :=
  (x % ((2 ^ 32 : Nat) : Int)).toNat

/-- One iteration of the loop of `s_djb`:
`hash = ((hash << 5) + hash) + str[i]` on `unsigned int`. -/
def s_djb_step (char_signed : Bool) (hash : Nat) (c : Byte) : Nat :=
  (((hash <<< 5) % 2 ^ 32 + hash) % 2 ^ 32 + to_uint (char_value char_signed c)) % 2 ^ 32

/-- Embedding of `s_djb(str, len)`: `hash = 5381`, then one step per byte
`str[0] .. str[len-1]`. -/
def s_djb (char_signed : Bool) (str : List Byte) : Nat :=
  str.foldl (s_djb_step char_signed) 5381

def C1 : Nat := 0xcc9e2d51
def C2 : Nat := 0x1b873593
def R1 : Nat := 15
def R2 : Nat := 13
def M : Nat := 5
def N : Nat := 0xe6546b64

/-- Embedding of `ROL(x,y)`, that is `((x) << (y) | ((x) >> (32 - (y))))`, on a
32-bit `x`. -/
def ROL (x y : Nat) : Nat :=
  (x <<< y) % 2 ^ 32 ||| (x >>> (32 - y))

/-- Byte at offset `j` of the key, as an unsigned 8-bit value.  (An offset
outside the key is read as 0.) -/
def byte_at (str : List Byte) (j : Nat) : Nat :=
  (str.getD j 0).val

/-- Embedding of `head[i]` with `head = (const uint32_t *)str`: the
little-endian 32-bit word made of the bytes at offsets `4*i .. 4*i+3`. -/
def head (str : List Byte) (i : Nat) : Nat :=
  byte_at str (4 * i) + byte_at str (4 * i + 1) * 2 ^ 8
    + byte_at str (4 * i + 2) * 2 ^ 16 + byte_at str (4 * i + 3) * 2 ^ 24

/-- Body of the block loop of `s_murmur3`:
`k = ROL(head[i] * C1, R1) * C2; hash = ROL(hash^k, R2) * M + N;`. -/
def s_murmur3_mix (hash w : Nat) : Nat :=
  let k := ROL (w * C1 % 2 ^ 32) R1 * C2 % 2 ^ 32
  (ROL (hash ^^^ k) R2 * M + N) % 2 ^ 32

/-- Embedding of the loop `for (i = 0; i < nhead; i += 4) { ... }` of
`s_murmur3`, entered with the current `i` and `hash`.  The first argument
bounds the number of iterations still to run; `nhead` of them are always
enough (`s_murmur3_loop_fuel`). -/
def s_murmur3_loop (str : List Byte) (nhead : Nat) : Nat → Nat → Nat → Nat
  | 0, _, hash => hash
  | fuel + 1, i, hash =>
    if i < nhead then
      s_murmur3_loop str nhead fuel (i + 4) (s_murmur3_mix hash (head str i))
    else hash

/-- Embedding of `tail[j]` with `tail = (uint8_t *)str + (len / 4)`. -/
def tail (str : List Byte) (j : Nat) : Nat :=
  byte_at str (str.length / 4 + j)

/-- Embedding of the `switch (len & 3)` of `s_murmur3`, with its fall-through
from `case 3` to `case 2` to `case 1`; there is no `default`. -/
def s_murmur3_tail (str : List Byte) (hash : Nat) : Nat :=
  let r := str.length &&& 3
  let k := 0
  let k := if r = 3 then k ^^^ (tail str 2 <<< 16) else k
  let k := if r = 3 ∨ r = 2 then k ^^^ (tail str 1 <<< 8) else k
  if r = 3 ∨ r = 2 ∨ r = 1 then
    let k := k ^^^ tail str 0
    hash ^^^ (ROL (k * C1 % 2 ^ 32) R1 * C2 % 2 ^ 32)
  else hash

/-- The last six statements of `s_murmur3`, from `hash ^= (uint32_t)len`. -/
def s_murmur3_final (len hash : Nat) : Nat :=
  let hash := hash ^^^ (len % 2 ^ 32)
  let hash := hash ^^^ (hash >>> 16)
  let hash := hash * 0x85ebca6b % 2 ^ 32
  let hash := hash ^^^ (hash >>> 13)
  let hash := hash * 0xc2b2ae35 % 2 ^ 32
  hash ^^^ (hash >>> 16)

/-- Embedding of `s_murmur3(str, len, seed)`. -/
def s_murmur3 (str : List Byte) (seed : Nat) : Nat :=
  let nhead := str.length / 4
  let hash := s_murmur3_loop str nhead nhead 0 seed
  let hash := s_murmur3_tail str hash
  s_murmur3_final str.length hash

/-! ## The filter -/

/-- Value of `sizeof(int)`. -/
def sizeof_int : Nat := 4

/-- Value of `sizeof(bloom_t)`; `bloom_t` is the pointer type
`struct _bloom_t *`. -/
def sizeof_bloom_t : Nat := 8

/-- Offset of the flexible array member `b` in `struct _bloom_t` (three
`unsigned int` fields come before it). -/
def offsetof_b : Nat := 12

/-- Embedding of `struct _bloom_t`.  The field `b` holds the `int` slots of the
flexible array member that lie inside the allocated block; the values stored
there are never negative, so a slot is a natural number. -/
structure bloom_t where
  m : Nat
  mn : Nat
  k : Nat
  b : List Nat
deriving DecidableEq, Repr

/-- Size in bytes that `bloom_new` passes to `calloc`:
`sizeof(bloom_t) + sizeof(int) * n / WORDSIZE`, with `WORDSIZE` replaced by its
text `sizeof(int) * 8`. -/
def bloom_alloc_size (n : Nat) : Nat :=
  sizeof_bloom_t + sizeof_int * n / sizeof_int * 8

/-- Number of whole `int` slots of `b` inside a block of `bloom_alloc_size n`
bytes. -/
def bloom_slots (n : Nat) : Nat :=
  (bloom_alloc_size n - offsetof_b) / sizeof_int

/-- Exact-arithmetic reading of `(unsigned int)(round(log(x) / log(2)))` for an
`unsigned int` `x`: the integer nearest to the base-2 logarithm of `x`.  With
`e = ⌊log2 x⌋`, the logarithm reaches `e + 1/2` exactly when
`2 ^ (2*e+1) ≤ x * x` (`round_log2_eq_round` relates this to the real-valued
expression).  For `x = 0` the C expression converts `-inf` to `unsigned int`,
which is undefined; the value here is then 0. -/
def round_log2 (x : Nat) : Nat :=
  let e := Nat.log 2 x
  if 2 ^ (2 * e + 1) ≤ x * x then e + 1 else e

/-- Embedding of `bloom_new(n, mn)`; allocation is assumed to succeed. -/
def bloom_new (n mn : Nat) : Option bloom_t :=
  if ¬ (n > 0) then none
  else if ¬ (mn > 1) then none
  else
    let mn := mn * 8 % 2 ^ 32
    some { m := n, mn := mn, k := round_log2 (2 * mn % 2 ^ 32),
           b := List.replicate (bloom_slots n) 0 }

/-- Index computed in round `n` by `bloom_set` and `bloom_isset`:
`i = (h1 + n*h2) % bloom->m` on `unsigned int`. -/
def bloom_index (m h1 h2 n : Nat) : Nat :=
  (h1 + n * h2 % 2 ^ 32) % 2 ^ 32 % m

/-- Slot of `b` selected by `i / WORDSIZE`, with `WORDSIZE` replaced by its
text: `i / sizeof(int) * 8`. -/
def bloom_slot (i : Nat) : Nat :=
  i / sizeof_int * 8

/-- Mask `(1 << (i % WORDSIZE))`, with `WORDSIZE` replaced by its text:
`1 << (i % sizeof(int) * 8)`. -/
def bloom_mask (i : Nat) : Nat :=
  1 <<< (i % sizeof_int * 8)

/-- The statement `bloom->b[i / WORDSIZE] |= (1 << (i % WORDSIZE))`.  (A slot
outside the allocated block is left alone.) -/
def bloom_or (b : List Nat) (i : Nat) : List Nat :=
  b.set (bloom_slot i) (b.getD (bloom_slot i) 0 ||| bloom_mask i)

/-- The loop `for (n = 0; n < bloom->k; n++) { ... }` of `bloom_set`, entered
with the current `n` and with `rounds = k - n` iterations left. -/
def bloom_set_loop (m h1 h2 : Nat) : Nat → Nat → List Nat → List Nat
  | 0, _, b => b
  | rounds + 1, n, b =>
    bloom_set_loop m h1 h2 rounds (n + 1) (bloom_or b (bloom_index m h1 h2 n))

/-- Embedding of `bloom_set(bloom, key, len)`. -/
def bloom_set (char_signed : Bool) (bloom : bloom_t) (key : List Byte) : bloom_t :=
  let h1 := s_djb char_signed key
  let h2 := s_murmur3 key h1
  { bloom with b := bloom_set_loop bloom.m h1 h2 bloom.k 0 bloom.b }

/-- The test `bloom->b[i / WORDSIZE] & (1 << (i % WORDSIZE))` is non-zero.  (A
slot outside the allocated block is read as 0.) -/
def bloom_test (b : List Nat) (i : Nat) : Bool :=
  b.getD (bloom_slot i) 0 &&& bloom_mask i != 0

/-- The loop `for (i = 1, n = 0; n < bloom->k; n++) { ... }` of `bloom_isset`
and the `return 1` after it, entered with the current `n` and with
`rounds = k - n` iterations left. -/
def bloom_isset_loop (bloom : bloom_t) (h1 h2 : Nat) : Nat → Nat → Nat
  | 0, _ => 1
  | rounds + 1, n =>
    if ¬ bloom_test bloom.b (bloom_index bloom.m h1 h2 n) then 0
    else bloom_isset_loop bloom h1 h2 rounds (n + 1)

/-- Embedding of `bloom_isset(bloom, key, len)`. -/
def bloom_isset (char_signed : Bool) (bloom : bloom_t) (key : List Byte) : Nat :=
  let h1 := s_djb char_signed key
  let h2 := s_murmur3 key h1
  bloom_isset_loop bloom h1 h2 bloom.k 0

/-- The bit of the storage that index `i` addresses: bit `(i % 4) * 8` of slot
`(i / 4) * 8`. -/
def bloom_bit (bloom : bloom_t) (i : Nat) : Bool :=
  (bloom.b.getD (i / 4 * 8) 0).testBit (i % 4 * 8)

/-- The storage is at least as large as the block `bloom_new` allocates for
`bloom.m` bits. -/
def bloom_allocated (bloom : bloom_t) : Prop :=
  bloom_slots bloom.m ≤ bloom.b.length

instance (bloom : bloom_t) : Decidable (bloom_allocated bloom) :=
  inferInstanceAs (Decidable (_ ≤ _))

/-- A call on a filter: `bloom_set(bloom, key, len)`,
`bloom_isset(bloom, key, len)` or `bloom_fp(bloom)`. -/
inductive bloom_call where
  | set (key : List Byte)
  | isset (key : List Byte)
  | fp

/-- Filter state after a call.  `bloom_isset` and `bloom_fp` only read
`*bloom`. -/
def bloom_after (char_signed : Bool) (bloom : bloom_t) : bloom_call → bloom_t
  | bloom_call.set key => bloom_set char_signed bloom key
  | bloom_call.isset _ => bloom
  | bloom_call.fp => bloom

/-! ## Reference definitions from the specification -/

/-- StringHash as the specification words it: the left fold
`acc -> (acc * 33 + byte) mod 2^32` from 5381, `byte` in `0..255`. -/
def StringHash_ref (str : List Byte) : Nat :=
  str.foldl (fun acc c => (acc * 33 + c.val) % 2 ^ 32) 5381

/-- Rotation of a 32-bit value to the left by `r` bits. -/
def rotl32 (x r : Nat) : Nat :=
  x * 2 ^ r % 2 ^ 32 + x / 2 ^ (32 - r)

/-- Little-endian 4-byte block `j` of the input: bytes `4j .. 4j+3`. -/
def block_ref (str : List Byte) (j : Nat) : Nat :=
  ((List.range 4).map (fun t => byte_at str (4 * j + t) * 2 ^ (8 * t))).sum

/-- Block scrambling of the specification: multiply by `0xcc9e2d51`, rotate
left 15, multiply by `0x1b873593`. -/
def scramble_ref (blk : Nat) : Nat :=
  rotl32 (blk * 0xcc9e2d51 % 2 ^ 32) 15 * 0x1b873593 % 2 ^ 32

/-- Accumulator update of the specification for one complete block. -/
def block_step_ref (acc blk : Nat) : Nat :=
  (rotl32 (acc ^^^ scramble_ref blk) 13 * 5 + 0xe6546b64) % 2 ^ 32

/-- Accumulator of the specification after all `len / 4` complete blocks, in
order. -/
def blocks_ref (str : List Byte) (seed : Nat) : Nat :=
  (List.range (str.length / 4)).foldl (fun acc j => block_step_ref acc (block_ref str j)) seed

/-- Partial block of the specification: the `len mod 4` bytes after the last
complete block, leftover byte `t` in bits `8t .. 8t+7`. -/
def leftover_ref (str : List Byte) : Nat :=
  ((List.range (str.length % 4)).map
    (fun t => byte_at str (4 * (str.length / 4) + t) * 2 ^ (8 * t))).sum

/-- Final avalanche of the specification, after the XOR with the length. -/
def avalanche_ref (h : Nat) : Nat :=
  let h := h ^^^ (h / 2 ^ 16)
  let h := h * 0x85ebca6b % 2 ^ 32
  let h := h ^^^ (h / 2 ^ 13)
  let h := h * 0xc2b2ae35 % 2 ^ 32
  h ^^^ (h / 2 ^ 16)

/-- SeededMixHash as the specification words it: every complete block is
mixed, then the partial block (if any), then the avalanche. -/
def SeededMixHash_ref (str : List Byte) (seed : Nat) : Nat :=
  let acc := blocks_ref str seed
  let acc := if str.length % 4 = 0 then acc else acc ^^^ scramble_ref (leftover_ref str)
  avalanche_ref (acc ^^^ (str.length % 2 ^ 32))

/-! ## Reads of the key with a bounds check -/

/-- Byte at offset `j` of the key, `none` when `j` is not an offset of the
key. -/
def byte_read (str : List Byte) (j : Nat) : Option Nat :=
  (str.get? j).map (fun c => c.val)

/-- The load `head[i]` (see `head`), every byte read with a bounds check. -/
def head_read (str : List Byte) (i : Nat) : Option Nat :=
  match byte_read str (4 * i), byte_read str (4 * i + 1), byte_read str (4 * i + 2),
      byte_read str (4 * i + 3) with
  | some b0, some b1, some b2, some b3 => some (b0 + b1 * 2 ^ 8 + b2 * 2 ^ 16 + b3 * 2 ^ 24)
  | _, _, _, _ => none

/-- The block loop of `s_murmur3` (see `s_murmur3_loop`) with checked loads. -/
def s_murmur3_loop_read (str : List Byte) (nhead : Nat) : Nat → Nat → Nat → Option Nat
  | 0, _, hash => some hash
  | fuel + 1, i, hash =>
    if i < nhead then
      match head_read str i with
      | some w => s_murmur3_loop_read str nhead fuel (i + 4) (s_murmur3_mix hash w)
      | none => none
    else some hash

/-- The load `tail[j]` (see `tail`) with a bounds check. -/
def tail_read (str : List Byte) (j : Nat) : Option Nat :=
  byte_read str (str.length / 4 + j)

/-- The `switch (len & 3)` of `s_murmur3` (see `s_murmur3_tail`) with checked
loads; `case 3` reads `tail[2]`, `tail[1]`, `tail[0]`, `case 2` reads `tail[1]`,
`tail[0]`, `case 1` reads `tail[0]`. -/
def s_murmur3_tail_read (str : List Byte) (hash : Nat) : Option Nat :=
  let r := str.length &&& 3
  let fold := fun (k : Nat) => hash ^^^ (ROL (k * C1 % 2 ^ 32) R1 * C2 % 2 ^ 32)
  if r = 3 then
    match tail_read str 2, tail_read str 1, tail_read str 0 with
    | some t2, some t1, some t0 => some (fold (((0 ^^^ (t2 <<< 16)) ^^^ (t1 <<< 8)) ^^^ t0))
    | _, _, _ => none
  else if r = 2 then
    match tail_read str 1, tail_read str 0 with
    | some t1, some t0 => some (fold ((0 ^^^ (t1 <<< 8)) ^^^ t0))
    | _, _ => none
  else if r = 1 then
    match tail_read str 0 with
    | some t0 => some (fold (0 ^^^ t0))
    | none => none
  else some hash

/-- Embedding of `s_murmur3(str, len, seed)` in which every read of the key is
checked against `len`: `none` as soon as one read is out of range. -/
def s_murmur3_read (str : List Byte) (seed : Nat) : Option Nat :=
  let nhead := str.length / 4
  match s_murmur3_loop_read str nhead nhead 0 seed with
  | some hash =>
    match s_murmur3_tail_read str hash with
    | some hash => some (s_murmur3_final str.length hash)
    | none => none
  | none => none

/-! ## The false-positive estimate -/

/-- Embedding of `bloom_fp(bloom)`, that is
`pow(1 - exp(-1.0 * bloom->k / bloom->mn), bloom->k)`, read over the reals. -/
noncomputable def bloom_fp (bloom : bloom_t) : ℝ :=
  (1 - Real.exp (-1.0 * (bloom.k : ℝ) / (bloom.mn : ℝ))) ^ bloom.k

/-! ## Storage lemmas -/

theorem bloom_mask_eq (i : Nat) : bloom_mask i = 2 ^ (i % sizeof_int * 8) := by
  simp [bloom_mask, Nat.one_shiftLeft]

theorem and_two_pow_ne_zero (x s : Nat) : (x &&& 2 ^ s != 0) = x.testBit s := by
  cases h : x.testBit s
  · have h0 : x &&& 2 ^ s = 0 := by
      apply Nat.eq_of_testBit_eq
      intro p
      by_cases hp : s = p
      · subst hp; simp [h]
      · simp [Nat.testBit_two_pow, hp]
    simp [h0]
  · have h1 : (x &&& 2 ^ s).testBit s = true := by simp [h]
    have h2 : x &&& 2 ^ s ≠ 0 := by
      intro h0
      rw [h0] at h1
      simp at h1
    simpa using h2

theorem bloom_test_eq (b : List Nat) (i : Nat) :
    bloom_test b i = (b.getD (bloom_slot i) 0).testBit (i % sizeof_int * 8) := by
  unfold bloom_test
  rw [bloom_mask_eq, and_two_pow_ne_zero]

theorem length_bloom_or (b : List Nat) (i : Nat) : (bloom_or b i).length = b.length := by
  simp [bloom_or]

theorem getD_bloom_or (b : List Nat) (i w : Nat) :
    (bloom_or b i).getD w 0 =
      if w = bloom_slot i ∧ w < b.length then b.getD w 0 ||| bloom_mask i else b.getD w 0 := by
  unfold bloom_or
  simp only [List.getD_eq_getElem?_getD, List.getElem?_set]
  by_cases hw : bloom_slot i = w
  · subst hw
    by_cases hl : bloom_slot i < b.length
    · simp [hl]
    · have hn : b[bloom_slot i]? = none := List.getElem?_eq_none (Nat.le_of_not_lt hl)
      simp [hl, hn]
  · have hw2 : ¬ w = bloom_slot i := fun h => hw h.symm
    simp [hw, hw2]

theorem testBit_bloom_or (b : List Nat) (i w p : Nat) :
    ((bloom_or b i).getD w 0).testBit p = true ↔
      (b.getD w 0).testBit p = true ∨
        (w < b.length ∧ bloom_slot i = w ∧ i % sizeof_int * 8 = p) := by
  rw [getD_bloom_or]
  by_cases h : w = bloom_slot i ∧ w < b.length
  · rw [if_pos h, Nat.testBit_or, bloom_mask_eq, Nat.testBit_two_pow]
    obtain ⟨h1, h2⟩ := h
    subst h1
    simp [h2]
  · rw [if_neg h]
    constructor
    · intro hb
      exact Or.inl hb
    · rintro (hb | ⟨hl, hs, _⟩)
      · exact hb
      · exact absurd ⟨hs.symm, hl⟩ h

theorem length_bloom_set_loop (m h1 h2 : Nat) (rounds n : Nat) (b : List Nat) :
    (bloom_set_loop m h1 h2 rounds n b).length = b.length := by
  induction rounds generalizing n b with
  | zero => rfl
  | succ r ih =>
    simp only [bloom_set_loop]
    rw [ih, length_bloom_or]

theorem testBit_bloom_set_loop (m h1 h2 : Nat) (rounds n : Nat) (b : List Nat) (w p : Nat) :
    ((bloom_set_loop m h1 h2 rounds n b).getD w 0).testBit p = true ↔
      (b.getD w 0).testBit p = true ∨
        (w < b.length ∧ ∃ j, n ≤ j ∧ j < n + rounds ∧
          bloom_slot (bloom_index m h1 h2 j) = w ∧
          bloom_index m h1 h2 j % sizeof_int * 8 = p) := by
  induction rounds generalizing n b with
  | zero =>
    simp only [bloom_set_loop]
    constructor
    · intro hb
      exact Or.inl hb
    · rintro (hb | ⟨_, j, hj1, hj2, _⟩)
      · exact hb
      · omega
  | succ r ih =>
    simp only [bloom_set_loop]
    rw [ih, testBit_bloom_or, length_bloom_or]
    constructor
    · rintro ((hb | ⟨hl, hs, hp⟩) | ⟨hl, j, hj1, hj2, hs, hp⟩)
      · exact Or.inl hb
      · exact Or.inr ⟨hl, n, Nat.le_refl n, by omega, hs, hp⟩
      · exact Or.inr ⟨hl, j, by omega, by omega, hs, hp⟩
    · rintro (hb | ⟨hl, j, hj1, hj2, hs, hp⟩)
      · exact Or.inl (Or.inl hb)
      · by_cases hj : j = n
        · subst hj
          exact Or.inl (Or.inr ⟨hl, hs, hp⟩)
        · exact Or.inr ⟨hl, j, by omega, by omega, hs, hp⟩

/-- Two slot lists of the same length whose slots agree bit by bit are equal. -/
theorem slots_ext (b c : List Nat) (hlen : b.length = c.length)
    (hbit : ∀ w p, (b.getD w 0).testBit p = (c.getD w 0).testBit p) : b = c := by
  apply List.ext_getElem hlen
  intro w hw1 hw2
  have h := Nat.eq_of_testBit_eq (hbit w)
  simpa [List.getD_eq_getElem?_getD, List.getElem?_eq_getElem hw1,
    List.getElem?_eq_getElem hw2] using h

theorem isset_loop_eq_one_iff (bloom : bloom_t) (h1 h2 : Nat) (rounds n : Nat) :
    bloom_isset_loop bloom h1 h2 rounds n = 1 ↔
      ∀ j, n ≤ j → j < n + rounds →
        bloom_test bloom.b (bloom_index bloom.m h1 h2 j) = true := by
  induction rounds generalizing n with
  | zero =>
    simp only [bloom_isset_loop]
    constructor
    · intro _ j hj1 hj2
      omega
    · intro _
      trivial
  | succ r ih =>
    simp only [bloom_isset_loop]
    by_cases ht : bloom_test bloom.b (bloom_index bloom.m h1 h2 n) = true
    · rw [if_neg (not_not_intro ht), ih]
      constructor
      · intro h j hj1 hj2
        by_cases hj : j = n
        · subst hj; exact ht
        · exact h j (by omega) (by omega)
      · intro h j hj1 hj2
        exact h j (by omega) (by omega)
    · rw [if_pos ht]
      constructor
      · intro h
        exact absurd h Nat.zero_ne_one
      · intro h
        exact absurd (h n (Nat.le_refl n) (by omega)) ht

theorem isset_loop_zero_or_one (bloom : bloom_t) (h1 h2 : Nat) (rounds n : Nat) :
    bloom_isset_loop bloom h1 h2 rounds n = 0 ∨ bloom_isset_loop bloom h1 h2 rounds n = 1 := by
  induction rounds generalizing n with
  | zero => exact Or.inr rfl
  | succ r ih =>
    simp only [bloom_isset_loop]
    by_cases ht : bloom_test bloom.b (bloom_index bloom.m h1 h2 n) = true
    · rw [if_neg (not_not_intro ht)]
      exact ih (n + 1)
    · rw [if_pos ht]
      exact Or.inl rfl

/-! ## The filter operations -/

theorem bloom_index_eq (m h1 h2 n : Nat) :
    bloom_index m h1 h2 n = (h1 + n * h2) % 2 ^ 32 % m := by
  unfold bloom_index
  rw [Nat.add_mod_mod]

theorem bloom_index_lt (m h1 h2 n : Nat) (hm : 0 < m) : bloom_index m h1 h2 n < m := by
  unfold bloom_index
  exact Nat.mod_lt _ hm

theorem bloom_test_eq_bit (bloom : bloom_t) (i : Nat) :
    bloom_test bloom.b i = bloom_bit bloom i := by
  rw [bloom_test_eq]
  rfl

theorem bloom_slot_lt (m i : Nat) (hi : i < m) : bloom_slot i < bloom_slots m := by
  unfold bloom_slot bloom_slots bloom_alloc_size sizeof_bloom_t sizeof_int offsetof_b
  omega

theorem bloom_new_eq (n mn : Nat) (hn : 0 < n) (hmn : 1 < mn) :
    bloom_new n mn = some ⟨n, mn * 8 % 2 ^ 32, round_log2 (2 * (mn * 8 % 2 ^ 32) % 2 ^ 32),
      List.replicate (bloom_slots n) 0⟩ := by
  unfold bloom_new
  rw [if_neg (not_not_intro hn), if_neg (not_not_intro hmn)]

theorem bloom_set_m (cs : Bool) (bloom : bloom_t) (key : List Byte) :
    (bloom_set cs bloom key).m = bloom.m := rfl

theorem bloom_set_mn (cs : Bool) (bloom : bloom_t) (key : List Byte) :
    (bloom_set cs bloom key).mn = bloom.mn := rfl

theorem bloom_set_k (cs : Bool) (bloom : bloom_t) (key : List Byte) :
    (bloom_set cs bloom key).k = bloom.k := rfl

theorem bloom_set_length (cs : Bool) (bloom : bloom_t) (key : List Byte) :
    (bloom_set cs bloom key).b.length = bloom.b.length := by
  unfold bloom_set
  exact length_bloom_set_loop _ _ _ _ _ _

theorem bloom_set_allocated (cs : Bool) (bloom : bloom_t) (key : List Byte)
    (h : bloom_allocated bloom) : bloom_allocated (bloom_set cs bloom key) := by
  unfold bloom_allocated at *
  rw [bloom_set_m, bloom_set_length]
  exact h

/-- Bits of the storage after `bloom_set`: the old bits and the bits of the
`k` rounds that fall inside the storage. -/
theorem testBit_bloom_set (cs : Bool) (bloom : bloom_t) (key : List Byte) (w p : Nat) :
    ((bloom_set cs bloom key).b.getD w 0).testBit p = true ↔
      (bloom.b.getD w 0).testBit p = true ∨
        (w < bloom.b.length ∧ ∃ j, j < bloom.k ∧
          bloom_slot (bloom_index bloom.m (s_djb cs key) (s_murmur3 key (s_djb cs key)) j) = w ∧
          bloom_index bloom.m (s_djb cs key) (s_murmur3 key (s_djb cs key)) j
            % sizeof_int * 8 = p) := by
  unfold bloom_set
  simp only []
  rw [testBit_bloom_set_loop]
  constructor
  · rintro (hb | ⟨hl, j, _, hj, hs, hp⟩)
    · exact Or.inl hb
    · exact Or.inr ⟨hl, j, by omega, hs, hp⟩
  · rintro (hb | ⟨hl, j, hj, hs, hp⟩)
    · exact Or.inl hb
    · exact Or.inr ⟨hl, j, Nat.zero_le j, by omega, hs, hp⟩

theorem bloom_bit_set_mono (cs : Bool) (bloom : bloom_t) (key : List Byte) (i : Nat)
    (h : bloom_bit bloom i = true) : bloom_bit (bloom_set cs bloom key) i = true := by
  unfold bloom_bit at *
  exact (testBit_bloom_set cs bloom key _ _).mpr (Or.inl h)

theorem bloom_bit_set_round (cs : Bool) (bloom : bloom_t) (key : List Byte)
    (hm : 0 < bloom.m) (ha : bloom_allocated bloom) (j : Nat) (hj : j < bloom.k) :
    bloom_bit (bloom_set cs bloom key)
      (bloom_index bloom.m (s_djb cs key) (s_murmur3 key (s_djb cs key)) j) = true := by
  unfold bloom_bit
  apply (testBit_bloom_set cs bloom key _ _).mpr
  refine Or.inr ⟨?_, j, hj, rfl, rfl⟩
  exact Nat.lt_of_lt_of_le (bloom_slot_lt bloom.m _ (bloom_index_lt _ _ _ _ hm)) ha

theorem bloom_isset_eq_one_iff (cs : Bool) (bloom : bloom_t) (key : List Byte) :
    bloom_isset cs bloom key = 1 ↔
      ∀ j, j < bloom.k →
        bloom_bit bloom
          (bloom_index bloom.m (s_djb cs key) (s_murmur3 key (s_djb cs key)) j) = true := by
  unfold bloom_isset
  simp only []
  rw [isset_loop_eq_one_iff]
  constructor
  · intro h j hj
    rw [← bloom_test_eq_bit]
    exact h j (Nat.zero_le j) (by omega)
  · intro h j _ hj
    rw [bloom_test_eq_bit]
    exact h j (by omega)

theorem bloom_isset_set_self (cs : Bool) (bloom : bloom_t) (key : List Byte)
    (hm : 0 < bloom.m) (ha : bloom_allocated bloom) :
    bloom_isset cs (bloom_set cs bloom key) key = 1 := by
  rw [bloom_isset_eq_one_iff]
  intro j hj
  exact bloom_bit_set_round cs bloom key hm ha j hj

theorem bloom_isset_set_mono (cs : Bool) (bloom : bloom_t) (key other : List Byte)
    (h : bloom_isset cs bloom key = 1) :
    bloom_isset cs (bloom_set cs bloom other) key = 1 := by
  rw [bloom_isset_eq_one_iff] at *
  intro j hj
  exact bloom_bit_set_mono cs bloom other _ (h j hj)

theorem bloom_isset_foldl_mono (cs : Bool) (keys : List (List Byte)) (bloom : bloom_t)
    (key : List Byte) (h : bloom_isset cs bloom key = 1) :
    bloom_isset cs (keys.foldl (bloom_set cs) bloom) key = 1 := by
  induction keys generalizing bloom with
  | nil => exact h
  | cons k0 rest ih =>
    rw [List.foldl_cons]
    exact ih _ (bloom_isset_set_mono cs bloom key k0 h)

theorem bloom_isset_foldl_mem (cs : Bool) (keys : List (List Byte)) (bloom : bloom_t)
    (hm : 0 < bloom.m) (ha : bloom_allocated bloom) (key : List Byte) (hk : key ∈ keys) :
    bloom_isset cs (keys.foldl (bloom_set cs) bloom) key = 1 := by
  induction keys generalizing bloom with
  | nil => cases hk
  | cons k0 rest ih =>
    rw [List.foldl_cons]
    rcases List.mem_cons.mp hk with rfl | hrest
    · exact bloom_isset_foldl_mono cs rest _ _ (bloom_isset_set_self cs bloom _ hm ha)
    · exact ih (bloom_set cs bloom k0) hm (bloom_set_allocated cs bloom k0 ha) hrest

/-- **C1** No false negatives.  For `n > 0` and `mn > 1`, `bloom_new(n, mn)`
returns a filter, and after any finite sequence `keys` of `bloom_set` calls on
it, `bloom_isset` returns 1 for every key of the sequence (wherever the key
stands in the sequence: right after its own insertion, `keys` ends with it;
after later insertions of other keys, it stands earlier). -/
theorem no_false_negatives (char_signed : Bool) (n mn : Nat) (hn : 0 < n) (hmn : 1 < mn)
    (keys : List (List Byte)) (key : List Byte) (hk : key ∈ keys) :
    ∃ bloom, bloom_new n mn = some bloom ∧
      bloom_isset char_signed (keys.foldl (bloom_set char_signed) bloom) key = 1 := by
  refine ⟨_, bloom_new_eq n mn hn hmn, ?_⟩
  apply bloom_isset_foldl_mem char_signed keys _ hn _ key hk
  unfold bloom_allocated
  simp

theorem no_false_negatives_witness :
    ∃ bloom, bloom_new 100000 3 = some bloom ∧
      bloom_isset true
        (([[65, 66], [65, 66, 65], [65, 66, 66, 65]] : List (List Byte)).foldl
          (bloom_set true) bloom) [65, 66] = 1 :=
  no_false_negatives true 100000 3 (by decide) (by decide)
    [[65, 66], [65, 66, 65], [65, 66, 66, 65]] [65, 66] (by decide)

theorem bloom_t_ext (x y : bloom_t) (hm : x.m = y.m) (hmn : x.mn = y.mn) (hk : x.k = y.k)
    (hb : x.b = y.b) : x = y := by
  cases x
  cases y
  simp_all

theorem bloom_calls_testBit (cs : Bool) (calls : List bloom_call) (bloom : bloom_t) (w p : Nat)
    (h : (bloom.b.getD w 0).testBit p = true) :
    ((calls.foldl (bloom_after cs) bloom).b.getD w 0).testBit p = true := by
  induction calls generalizing bloom with
  | nil => exact h
  | cons c rest ih =>
    rw [List.foldl_cons]
    apply ih
    cases c with
    | set key => exact (testBit_bloom_set cs bloom key w p).mpr (Or.inl h)
    | isset key => exact h
    | fp => exact h

theorem round_log2_pos (x : Nat) (hx : 2 ≤ x) : 1 ≤ round_log2 x := by
  have hlog : 0 < Nat.log 2 x := Nat.log_pos (by decide) hx
  unfold round_log2
  simp only []
  split <;> omega

theorem getD_replicate_zero (len w : Nat) : (List.replicate len 0).getD w 0 = 0 := by
  rw [List.getD_eq_getElem?_getD, List.getElem?_replicate]
  split <;> rfl

/-- **C2** Query semantics.  With `h1 = s_djb(key)` and `h2 = s_murmur3(key, h1)`,
`bloom_isset` returns 1 exactly when, for every round `n < k`, the bit addressed
by index `((h1 + n*h2) mod 2^32) mod m` is 1, and returns 0 exactly when at
least one of those `k` bits is 0. -/
theorem isset_query_semantics (char_signed : Bool) (bloom : bloom_t) (key : List Byte) :
    (bloom_isset char_signed bloom key = 1 ↔
      ∀ n, n < bloom.k →
        bloom_bit bloom
          ((s_djb char_signed key + n * s_murmur3 key (s_djb char_signed key))
            % 2 ^ 32 % bloom.m) = true) ∧
    (bloom_isset char_signed bloom key = 0 ↔
      ∃ n, n < bloom.k ∧
        bloom_bit bloom
          ((s_djb char_signed key + n * s_murmur3 key (s_djb char_signed key))
            % 2 ^ 32 % bloom.m) = false) := by
  have h1 := bloom_isset_eq_one_iff char_signed bloom key
  simp only [bloom_index_eq] at h1
  refine ⟨h1, ?_⟩
  have h01 : bloom_isset char_signed bloom key = 0 ∨ bloom_isset char_signed bloom key = 1 :=
    isset_loop_zero_or_one bloom _ _ _ _
  constructor
  · intro h0
    by_contra hne
    have hall : bloom_isset char_signed bloom key = 1 := by
      rw [h1]
      intro n hn
      by_contra hb
      exact hne ⟨n, hn, by simpa using hb⟩
    omega
  · rintro ⟨n, hn, hb⟩
    rcases h01 with h0 | h1'
    · exact h0
    · have := h1.mp h1' n hn
      rw [hb] at this
      cases this

/-- **C3** Insert postcondition.  For a filter with `m > 0` whose storage is the
block allocated for `m` bits, with `h1 = s_djb(key)` and
`h2 = s_murmur3(key, h1)`: for every round `n < k` the index
`((h1 + n*h2) mod 2^32) mod m` is smaller than `m`, and after
`bloom_set(filter, key)` the bit it addresses reads as 1. -/
theorem set_postcondition (char_signed : Bool) (bloom : bloom_t) (key : List Byte)
    (hm : 0 < bloom.m) (ha : bloom_allocated bloom) (n : Nat) (hn : n < bloom.k) :
    (s_djb char_signed key + n * s_murmur3 key (s_djb char_signed key))
        % 2 ^ 32 % bloom.m < bloom.m ∧
      bloom_bit (bloom_set char_signed bloom key)
        ((s_djb char_signed key + n * s_murmur3 key (s_djb char_signed key))
          % 2 ^ 32 % bloom.m) = true := by
  rw [← bloom_index_eq]
  exact ⟨bloom_index_lt _ _ _ _ hm, bloom_bit_set_round char_signed bloom key hm ha n hn⟩

theorem set_postcondition_witness :
    (s_djb true [65] + 4 * s_murmur3 [65] (s_djb true [65])) % 2 ^ 32 % 3 < 3 ∧
      bloom_bit (bloom_set true ⟨3, 16, 5, [0, 0, 0, 0, 0]⟩ [65])
        ((s_djb true [65] + 4 * s_murmur3 [65] (s_djb true [65])) % 2 ^ 32 % 3) = true :=
  set_postcondition true ⟨3, 16, 5, [0, 0, 0, 0, 0]⟩ [65] (by decide) (by decide) 4 (by decide)

/-- **C4** A fresh filter is empty.  For `n > 0`, `mn > 1` with `16*mn < 2^32`
and every key, `bloom_new(n, mn)` returns a filter all of whose storage slots
(hence all of whose bits) are 0, and `bloom_isset` on it returns 0. -/
theorem fresh_filter_empty (char_signed : Bool) (n mn : Nat) (hn : 0 < n) (hmn : 1 < mn)
    (hb : 16 * mn < 2 ^ 32) (key : List Byte) :
    ∃ bloom, bloom_new n mn = some bloom ∧
      (∀ w, bloom.b.getD w 0 = 0) ∧
      (∀ i, bloom_bit bloom i = false) ∧
      bloom_isset char_signed bloom key = 0 := by
  refine ⟨_, bloom_new_eq n mn hn hmn, ?_, ?_, ?_⟩
  · intro w
    exact getD_replicate_zero _ _
  · intro i
    unfold bloom_bit
    simp only []
    rw [getD_replicate_zero]
    exact Nat.zero_testBit _
  · rw [(isset_query_semantics char_signed _ key).2]
    refine ⟨0, ?_, ?_⟩
    · have h8 : mn * 8 % 2 ^ 32 = mn * 8 := Nat.mod_eq_of_lt (by omega)
      have h16 : 2 * (mn * 8) % 2 ^ 32 = 2 * (mn * 8) := Nat.mod_eq_of_lt (by omega)
      show 0 < round_log2 (2 * (mn * 8 % 2 ^ 32) % 2 ^ 32)
      rw [h8, h16]
      exact round_log2_pos _ (by omega)
    · unfold bloom_bit
      simp only []
      rw [getD_replicate_zero]
      exact Nat.zero_testBit _

theorem fresh_filter_empty_witness :
    ∃ bloom, bloom_new 100000 3 = some bloom ∧
      (∀ w, bloom.b.getD w 0 = 0) ∧
      (∀ i, bloom_bit bloom i = false) ∧
      bloom_isset true bloom [65] = 0 :=
  fresh_filter_empty true 100000 3 (by decide) (by decide) (by decide) [65]

/-- **C5** Idempotence of insert.  Calling `bloom_set(filter, key)` twice in a
row leaves the same filter state (`m`, `mn`, `k` and every storage slot) as
calling it once, and so the same `bloom_isset` result for every query key. -/
theorem set_idempotent (char_signed : Bool) (bloom : bloom_t) (key : List Byte) :
    bloom_set char_signed (bloom_set char_signed bloom key) key
        = bloom_set char_signed bloom key ∧
      ∀ query,
        bloom_isset char_signed (bloom_set char_signed (bloom_set char_signed bloom key) key)
            query
          = bloom_isset char_signed (bloom_set char_signed bloom key) query := by
  have hstate : bloom_set char_signed (bloom_set char_signed bloom key) key
      = bloom_set char_signed bloom key := by
    refine bloom_t_ext _ _ (bloom_set_m _ _ _) (bloom_set_mn _ _ _) (bloom_set_k _ _ _) ?_
    apply slots_ext _ _ (bloom_set_length _ _ _)
    intro w p
    rw [Bool.eq_iff_iff, testBit_bloom_set char_signed (bloom_set char_signed bloom key) key,
      bloom_set_m, bloom_set_k, bloom_set_length, testBit_bloom_set char_signed bloom key]
    constructor
    · rintro ((hb | hx) | hx)
      · exact Or.inl hb
      · exact Or.inr hx
      · exact Or.inr hx
    · intro h
      exact Or.inl h
  refine ⟨hstate, ?_⟩
  intro query
  rw [hstate]

/-- **C6** Monotonic bit state.  A storage bit (bit `p` of slot `w`) that is 1
stays 1 after `bloom_set(filter, key)` for every key, and stays 1 after any
finite sequence of `bloom_set`, `bloom_isset` and `bloom_fp` calls. -/
theorem bits_never_cleared (char_signed : Bool) (bloom : bloom_t) (w p : Nat)
    (h : (bloom.b.getD w 0).testBit p = true) :
    (∀ key, ((bloom_set char_signed bloom key).b.getD w 0).testBit p = true) ∧
      ∀ calls : List bloom_call,
        ((calls.foldl (bloom_after char_signed) bloom).b.getD w 0).testBit p = true :=
  ⟨fun key => (testBit_bloom_set char_signed bloom key w p).mpr (Or.inl h),
    fun calls => bloom_calls_testBit char_signed calls bloom w p h⟩

theorem bits_never_cleared_witness :
    (∀ key, ((bloom_set true ⟨3, 16, 5, [256, 0, 0, 0, 0]⟩ key).b.getD 0 0).testBit 8 = true) ∧
      ∀ calls : List bloom_call,
        ((calls.foldl (bloom_after true) ⟨3, 16, 5, [256, 0, 0, 0, 0]⟩).b.getD 0 0).testBit 8
          = true :=
  bits_never_cleared true ⟨3, 16, 5, [256, 0, 0, 0, 0]⟩ 0 8 (by decide)

/-! ## The hash functions -/

/-- The block loop of `s_murmur3` never stops for lack of iterations: any two
iteration bounds that cover the remaining distance `nhead - i` in steps of 4
give the same result.  In particular the bound `nhead` used by `s_murmur3`
(entered with `i = 0`) is enough. -/
theorem s_murmur3_loop_fuel (str : List Byte) (nhead fuel fuel2 i hash : Nat)
    (h1 : nhead ≤ i + 4 * fuel) (h2 : nhead ≤ i + 4 * fuel2) :
    s_murmur3_loop str nhead fuel i hash = s_murmur3_loop str nhead fuel2 i hash := by
  induction fuel generalizing fuel2 i hash with
  | zero =>
    cases fuel2 with
    | zero => rfl
    | succ f2 =>
      simp only [s_murmur3_loop]
      rw [if_neg (by omega)]
  | succ f ih =>
    cases fuel2 with
    | zero =>
      simp only [s_murmur3_loop]
      rw [if_neg (by omega)]
    | succ f2 =>
      simp only [s_murmur3_loop]
      by_cases hi : i < nhead
      · rw [if_pos hi, if_pos hi]
        exact ih f2 (i + 4) _ (by omega) (by omega)
      · rw [if_neg hi, if_neg hi]

theorem s_djb_step_cast (cs : Bool) (hash : Nat) (c : Byte) :
    ((s_djb_step cs hash c : Nat) : Int)
      = ((hash : Int) * 33
          + (if cs = true ∧ 128 ≤ c.val then (c.val : Int) - 256 else (c.val : Int)))
        % 2 ^ 32 := by
  have hc : c.val < 256 := c.isLt
  unfold s_djb_step to_uint char_value
  rw [Nat.shiftLeft_eq]
  split
  · have hnn : (0 : Int) ≤ ((c.val : Int) - 256) % ((2 ^ 32 : Nat) : Int) :=
      Int.emod_nonneg _ (by norm_num)
    push_cast
    rw [Int.toNat_of_nonneg (by simpa using hnn)]
    omega
  · have hnn : (0 : Int) ≤ (c.val : Int) % ((2 ^ 32 : Nat) : Int) :=
      Int.emod_nonneg _ (by norm_num)
    push_cast
    rw [Int.toNat_of_nonneg (by simpa using hnn)]
    omega

theorem s_djb_foldl_cast (cs : Bool) (str : List Byte) (hash : Nat) :
    ((str.foldl (s_djb_step cs) hash : Nat) : Int)
      = str.foldl (fun (acc : Int) (c : Byte) =>
          (acc * 33
            + (if cs = true ∧ 128 ≤ c.val then (c.val : Int) - 256 else (c.val : Int)))
          % 2 ^ 32) (hash : Int) := by
  induction str generalizing hash with
  | nil => rfl
  | cons c rest ih =>
    rw [List.foldl_cons, List.foldl_cons, ih, s_djb_step_cast]

theorem s_djb_step_unsigned (cs : Bool) (hash : Nat) (c : Byte)
    (h : cs = false ∨ c.val < 128) :
    s_djb_step cs hash c = (hash * 33 + c.val) % 2 ^ 32 := by
  have hcast := s_djb_step_cast cs hash c
  have hif : ¬ (cs = true ∧ 128 ≤ c.val) := by
    rintro ⟨h1, h2⟩
    rcases h with h | h
    · rw [h] at h1
      cases h1
    · omega
  rw [if_neg hif] at hcast
  have : ((s_djb_step cs hash c : Nat) : Int) = (((hash * 33 + c.val) % 2 ^ 32 : Nat) : Int) := by
    rw [hcast]
    push_cast
    rfl
  exact_mod_cast this

theorem s_djb_foldl_unsigned (cs : Bool) (str : List Byte) (hash : Nat)
    (h : cs = false ∨ ∀ c ∈ str, c.val < 128) :
    str.foldl (s_djb_step cs) hash
      = str.foldl (fun acc c => (acc * 33 + c.val) % 2 ^ 32) hash := by
  induction str generalizing hash with
  | nil => rfl
  | cons c rest ih =>
    have hc : cs = false ∨ c.val < 128 := by
      rcases h with h | h
      · exact Or.inl h
      · exact Or.inr (h c (List.mem_cons_self c rest))
    have hrest : cs = false ∨ ∀ d ∈ rest, d.val < 128 := by
      rcases h with h | h
      · exact Or.inl h
      · exact Or.inr (fun d hd => h d (List.mem_cons_of_mem c hd))
    rw [List.foldl_cons, List.foldl_cons, s_djb_step_unsigned cs hash c hc, ih _ hrest]

/-- **C7** (counterexample) Where plain `char` is signed, `s_djb` of the
one-byte key `0x80` is `5381 * 33 - 128 = 177445`, while the fold of the claim
with the byte's value 128 gives `5381 * 33 + 128 = 177701`. -/
theorem s_djb_byte_value_counterexample :
    s_djb true [128] = 177445 ∧ StringHash_ref [128] = 177701 ∧
      s_djb true [128] ≠ StringHash_ref [128] := by
  decide

/-- **C7** (amended) `s_djb` returns the left fold
`acc -> (acc * 33 + c) mod 2^32` over the bytes in order, starting from 5381,
where `c` is the value of the byte read as a plain `char`: the byte's value
`0..255`, except that it is the byte's value minus 256 when plain `char` is
signed and the byte is 128 or more.  For the empty sequence it returns 5381.
Where plain `char` is unsigned, and for every key whose bytes are all below
128, this is the fold with the byte's value in `0..255`. -/
theorem s_djb_fold (char_signed : Bool) (str : List Byte) :
    ((s_djb char_signed str : Nat) : Int)
        = str.foldl (fun (acc : Int) (c : Byte) =>
            (acc * 33
              + (if char_signed = true ∧ 128 ≤ c.val then (c.val : Int) - 256
                  else (c.val : Int)))
            % 2 ^ 32) 5381 ∧
      s_djb char_signed [] = 5381 ∧
      s_djb false str = str.foldl (fun acc c => (acc * 33 + c.val) % 2 ^ 32) 5381 ∧
      ((∀ c ∈ str, c.val < 128) →
        s_djb char_signed str = str.foldl (fun acc c => (acc * 33 + c.val) % 2 ^ 32) 5381) :=
  ⟨s_djb_foldl_cast char_signed str 5381, rfl,
    s_djb_foldl_unsigned false str 5381 (Or.inl rfl),
    fun h => s_djb_foldl_unsigned char_signed str 5381 (Or.inr h)⟩

theorem s_djb_fold_witness :
    s_djb true [65, 66]
      = ([65, 66] : List Byte).foldl (fun acc c => (acc * 33 + c.val) % 2 ^ 32) 5381 :=
  (s_djb_fold true [65, 66]).2.2.2 (by
    intro c hc
    rcases List.mem_cons.mp hc with rfl | hc
    · decide
    · rcases List.mem_cons.mp hc with rfl | hc
      · decide
      · cases hc)

/-- **C8** (failing input) On the 8-byte key `"ABCDEFGH"` with seed 0 the code
returns 3334487126, the value for `"ABCD"` followed by four zero bytes: the
second block is never mixed.  Mixing every block gives 3236540242. -/
theorem s_murmur3_skips_block :
    s_murmur3 [65, 66, 67, 68, 69, 70, 71, 72] 0 = 3334487126 ∧
      SeededMixHash_ref [65, 66, 67, 68, 69, 70, 71, 72] 0 = 3236540242 ∧
      s_murmur3 [65, 66, 67, 68, 69, 70, 71, 72] 0 = s_murmur3 [65, 66, 67, 68, 0, 0, 0, 0] 0 := by
  decide

/-- **C9** (failing input) On the 5-byte key `"ABCDE"` with seed 7 the code
returns 647261128: its partial block is the byte at offset `len / 4 = 1`
(`'B'`), not the leftover byte at offset 4 (`'E'`), which is never read, so
`"ABCDF"` hashes to the same value.  Folding the leftover byte gives
1291496531. -/
theorem s_murmur3_tail_offset :
    s_murmur3 [65, 66, 67, 68, 69] 7 = 647261128 ∧
      SeededMixHash_ref [65, 66, 67, 68, 69] 7 = 1291496531 ∧
      s_murmur3 [65, 66, 67, 68, 69] 7 = s_murmur3 [65, 66, 67, 68, 70] 7 ∧
      s_murmur3 [65, 66, 67, 68, 69] 7 = SeededMixHash_ref [65, 66, 67, 68, 66] 7 := by
  decide

/-! ## Parameter derivation -/

/-- An odd power of two is not a square. -/
theorem two_pow_odd_ne_sq (j x : Nat) : 2 ^ (2 * j + 1) ≠ x * x := by
  intro h
  have hx : x ≠ 0 := by
    rintro rfl
    have hpos : 0 < 2 ^ (2 * j + 1) := Nat.pow_pos (by decide)
    omega
  have hv := congrArg (padicValNat 2) h
  rw [padicValNat.prime_pow, padicValNat.mul hx hx] at hv
  omega

/-- Integer characterisation of `round_log2`: `k = round_log2 x` satisfies
`2^(2k-1) ≤ x^2 < 2^(2k+1)`. -/
theorem round_log2_bounds (x : Nat) (hx : 2 ≤ x) :
    1 ≤ round_log2 x ∧ 2 ^ (2 * round_log2 x - 1) ≤ x * x ∧
      x * x < 2 ^ (2 * round_log2 x + 1) := by
  have hlog : 0 < Nat.log 2 x := Nat.log_pos (by decide) hx
  have hlo : 2 ^ Nat.log 2 x ≤ x := Nat.pow_log_le_self 2 (by omega)
  have hhi : x < 2 ^ (Nat.log 2 x + 1) := Nat.lt_pow_succ_log_self (by decide) x
  have hlo2 : 2 ^ (2 * Nat.log 2 x) ≤ x * x := by
    have := Nat.mul_le_mul hlo hlo
    rwa [← pow_add, ← two_mul] at this
  have hhi2 : x * x < 2 ^ (2 * Nat.log 2 x + 2) := by
    have := Nat.mul_lt_mul'' hhi hhi
    rwa [← pow_add, show Nat.log 2 x + 1 + (Nat.log 2 x + 1) = 2 * Nat.log 2 x + 2 by omega]
      at this
  unfold round_log2
  simp only []
  split
  · rename_i hge
    refine ⟨by omega, ?_, ?_⟩
    · rw [show 2 * (Nat.log 2 x + 1) - 1 = 2 * Nat.log 2 x + 1 by omega]
      exact hge
    · rw [show 2 * (Nat.log 2 x + 1) + 1 = 2 * Nat.log 2 x + 2 + 1 by omega, pow_succ]
      omega
  · rename_i hlt
    refine ⟨hlog, ?_, by omega⟩
    have hmono : 2 ^ (2 * Nat.log 2 x - 1) ≤ 2 ^ (2 * Nat.log 2 x) :=
      Nat.pow_le_pow_right (by decide) (by omega)
    omega

/-- From the integer bounds to the real logarithm: if
`2^(2j+1) ≤ x^2 < 2^(2j+3)` then `log x / log 2` is strictly within `1/2` of
`j + 1`, and rounds to it. -/
theorem log_div_log_two_near (x j : Nat) (hlo : 2 ^ (2 * j + 1) ≤ x * x)
    (hhi : x * x < 2 ^ (2 * j + 3)) :
    |Real.log (x : ℝ) / Real.log 2 - ((j + 1 : ℕ) : ℝ)| < 1 / 2 ∧
      round (Real.log (x : ℝ) / Real.log 2) = ((j + 1 : ℕ) : ℤ) := by
  have hlo' : 2 ^ (2 * j + 1) < x * x := lt_of_le_of_ne hlo (two_pow_odd_ne_sq j x)
  have hx0 : x ≠ 0 := by
    rintro rfl
    have hpos : 0 < 2 ^ (2 * j + 1) := Nat.pow_pos (by decide)
    omega
  have hxpos : (0 : ℝ) < (x : ℝ) := by exact_mod_cast Nat.pos_of_ne_zero hx0
  have hl2 : 0 < Real.log 2 := Real.log_pos one_lt_two
  have h1 : ((2 : ℝ) ^ (2 * j + 1)) < (x : ℝ) * (x : ℝ) := by exact_mod_cast hlo'
  have h2 : (x : ℝ) * (x : ℝ) < (2 : ℝ) ^ (2 * j + 3) := by exact_mod_cast hhi
  have hlog1 := Real.log_lt_log (by positivity) h1
  have hlog2 := Real.log_lt_log (by positivity) h2
  rw [Real.log_pow, Real.log_mul hxpos.ne' hxpos.ne'] at hlog1
  rw [Real.log_pow, Real.log_mul hxpos.ne' hxpos.ne'] at hlog2
  push_cast at hlog1 hlog2
  have hL1 : ((j : ℝ) + 1) - 1 / 2 < Real.log (x : ℝ) / Real.log 2 := by
    rw [lt_div_iff₀ hl2]
    linarith
  have hL2 : Real.log (x : ℝ) / Real.log 2 < ((j : ℝ) + 1) + 1 / 2 := by
    rw [div_lt_iff₀ hl2]
    linarith
  constructor
  · rw [abs_lt]
    push_cast
    constructor <;> linarith
  · rw [round_eq, Int.floor_eq_iff]
    push_cast
    constructor <;> linarith

/-- The exact-arithmetic `round_log2` is the real-valued
`round(log(x) / log(2))`, and the logarithm is strictly closer to it than to
any other integer. -/
theorem round_log2_eq_round (x : Nat) (hx : 2 ≤ x) :
    |Real.log (x : ℝ) / Real.log 2 - (round_log2 x : ℝ)| < 1 / 2 ∧
      round (Real.log (x : ℝ) / Real.log 2) = (round_log2 x : ℤ) := by
  obtain ⟨h1, hlo, hhi⟩ := round_log2_bounds x hx
  obtain ⟨j, hj⟩ : ∃ j, round_log2 x = j + 1 := ⟨round_log2 x - 1, by omega⟩
  rw [hj] at hlo hhi ⊢
  rw [show 2 * (j + 1) - 1 = 2 * j + 1 by omega] at hlo
  rw [show 2 * (j + 1) + 1 = 2 * j + 3 by omega] at hhi
  exact log_div_log_two_near x j hlo hhi

theorem round_log2_48 : round_log2 48 = 6 := by
  simp [round_log2, Nat.log]

/-- **C10** Parameter derivation.  For `n > 0`, `mn > 1` with `16*mn < 2^32`,
`bloom_new(n, mn)` returns a filter whose stored ratio is `8*mn` and whose `k`
is `round(log(2 * ratio) / log(2))` read over the reals: the logarithm of
`16*mn` to base 2 is strictly within `1/2` of `k`, equivalently
`2^(2k-1) ≤ (16*mn)^2 < 2^(2k+1)` with `k ≥ 1`.  The value of `k` is the same
for every `n`, and for `mn = 3` it is 6. -/
theorem rounds_derivation (n mn : Nat) (hn : 0 < n) (hmn : 1 < mn) (hb : 16 * mn < 2 ^ 32) :
    ∃ bloom, bloom_new n mn = some bloom ∧
      bloom.mn = 8 * mn ∧
      round (Real.log ((2 * bloom.mn : ℕ) : ℝ) / Real.log 2) = (bloom.k : ℤ) ∧
      |Real.log ((16 * mn : ℕ) : ℝ) / Real.log 2 - (bloom.k : ℝ)| < 1 / 2 ∧
      1 ≤ bloom.k ∧
      2 ^ (2 * bloom.k - 1) ≤ (16 * mn) ^ 2 ∧ (16 * mn) ^ 2 < 2 ^ (2 * bloom.k + 1) ∧
      (∀ n2, 0 < n2 → ∃ bloom2, bloom_new n2 mn = some bloom2 ∧ bloom2.k = bloom.k) ∧
      (mn = 3 → bloom.k = 6) := by
  have h8 : mn * 8 % 2 ^ 32 = 8 * mn := by
    rw [Nat.mod_eq_of_lt (by omega)]
    omega
  have h16 : 2 * (8 * mn) % 2 ^ 32 = 16 * mn := by
    rw [Nat.mod_eq_of_lt (by omega)]
    omega
  have hk : round_log2 (2 * (mn * 8 % 2 ^ 32) % 2 ^ 32) = round_log2 (16 * mn) := by
    rw [h8, h16]
  have hx : 2 ≤ 16 * mn := by omega
  obtain ⟨hpos, hlo, hhi⟩ := round_log2_bounds (16 * mn) hx
  obtain ⟨hnear, hround⟩ := round_log2_eq_round (16 * mn) hx
  refine ⟨_, bloom_new_eq n mn hn hmn, h8, ?_, ?_, ?_, ?_, ?_, ?_, ?_⟩
  · show round (Real.log ((2 * (mn * 8 % 2 ^ 32) : ℕ) : ℝ) / Real.log 2)
      = ((round_log2 (2 * (mn * 8 % 2 ^ 32) % 2 ^ 32) : ℕ) : ℤ)
    rw [hk, h8, show 2 * (8 * mn) = 16 * mn by omega]
    exact hround
  · show |Real.log ((16 * mn : ℕ) : ℝ) / Real.log 2
      - ((round_log2 (2 * (mn * 8 % 2 ^ 32) % 2 ^ 32) : ℕ) : ℝ)| < 1 / 2
    rw [hk]
    exact hnear
  · show 1 ≤ round_log2 (2 * (mn * 8 % 2 ^ 32) % 2 ^ 32)
    rw [hk]
    exact hpos
  · show 2 ^ (2 * round_log2 (2 * (mn * 8 % 2 ^ 32) % 2 ^ 32) - 1) ≤ (16 * mn) ^ 2
    rw [hk, pow_two]
    exact hlo
  · show (16 * mn) ^ 2 < 2 ^ (2 * round_log2 (2 * (mn * 8 % 2 ^ 32) % 2 ^ 32) + 1)
    rw [hk, pow_two]
    exact hhi
  · intro n2 hn2
    exact ⟨_, bloom_new_eq n2 mn hn2 hmn, rfl⟩
  · intro h3
    show round_log2 (2 * (mn * 8 % 2 ^ 32) % 2 ^ 32) = 6
    rw [hk, h3]
    exact round_log2_48

theorem rounds_derivation_witness :
    ∃ bloom, bloom_new 100000 3 = some bloom ∧
      bloom.mn = 8 * 3 ∧
      round (Real.log ((2 * bloom.mn : ℕ) : ℝ) / Real.log 2) = (bloom.k : ℤ) ∧
      |Real.log ((16 * 3 : ℕ) : ℝ) / Real.log 2 - (bloom.k : ℝ)| < 1 / 2 ∧
      1 ≤ bloom.k ∧
      2 ^ (2 * bloom.k - 1) ≤ (16 * 3) ^ 2 ∧ (16 * 3) ^ 2 < 2 ^ (2 * bloom.k + 1) ∧
      (∀ n2, 0 < n2 → ∃ bloom2, bloom_new n2 3 = some bloom2 ∧ bloom2.k = bloom.k) ∧
      (3 = 3 → bloom.k = 6) :=
  rounds_derivation 100000 3 (by decide) (by decide) (by decide)

/-! ## Construction -/

/-- **C11** (counterexample) `bloom_new(1, 2^29 + 1)` passes both `insist`
checks (`1 > 0`, `2^29 + 1 > 1`, both arguments below `2^32`), and `mn *= 8`
wraps around to 8: the stored ratio is 8, not greater than 8. -/
theorem bloom_new_ratio_wraps :
    (bloom_new 1 536870913).map (fun bloom => bloom.mn) = some 8 ∧
      ¬ ∃ bloom, bloom_new 1 536870913 = some bloom ∧ 8 < bloom.mn := by
  constructor
  · decide
  · rintro ⟨bloom, h, h8⟩
    rw [bloom_new_eq 1 536870913 (by decide) (by decide)] at h
    injection h with h
    subst h
    exact absurd h8 (by decide)

/-- **C11** (amended) For `n > 0` and `mn > 1`, `bloom_new(n, mn)` returns a
filter with `m = n > 0` and stored ratio `8 * mn mod 2^32`; the stored ratio is
greater than 8 when `8 * mn < 2^32`, and `k ≥ 1` when `16 * mn` is not a
multiple of `2^32` (in particular when `16 * mn < 2^32`). -/
theorem construction_invariants (n mn : Nat) (hn : 0 < n) (hmn : 1 < mn) :
    ∃ bloom, bloom_new n mn = some bloom ∧
      bloom.m = n ∧ 0 < bloom.m ∧
      bloom.mn = 8 * mn % 2 ^ 32 ∧
      (8 * mn < 2 ^ 32 → 8 < bloom.mn) ∧
      (16 * mn % 2 ^ 32 ≠ 0 → 1 ≤ bloom.k) ∧
      (16 * mn < 2 ^ 32 → 8 < bloom.mn ∧ 1 ≤ bloom.k) := by
  have hk : ∀ hne : 16 * mn % 2 ^ 32 ≠ 0,
      1 ≤ round_log2 (2 * (mn * 8 % 2 ^ 32) % 2 ^ 32) := by
    intro hne
    apply round_log2_pos
    omega
  refine ⟨_, bloom_new_eq n mn hn hmn, rfl, hn, ?_, ?_, hk, ?_⟩
  · show mn * 8 % 2 ^ 32 = 8 * mn % 2 ^ 32
    rw [Nat.mul_comm]
  · intro h8
    show 8 < mn * 8 % 2 ^ 32
    omega
  · intro h16
    refine ⟨?_, hk (by omega)⟩
    show 8 < mn * 8 % 2 ^ 32
    omega

theorem construction_invariants_witness :
    ∃ bloom, bloom_new 100000 3 = some bloom ∧
      bloom.m = 100000 ∧ 0 < bloom.m ∧
      bloom.mn = 8 * 3 % 2 ^ 32 ∧
      (8 * 3 < 2 ^ 32 → 8 < bloom.mn) ∧
      (16 * 3 % 2 ^ 32 ≠ 0 → 1 ≤ bloom.k) ∧
      (16 * 3 < 2 ^ 32 → 8 < bloom.mn ∧ 1 ≤ bloom.k) :=
  construction_invariants 100000 3 (by decide) (by decide)

/-- **C12** Construction rejects exactly the invalid arguments (allocation
failure aside): `bloom_new(n, mn)` aborts exactly when `n = 0` or `mn ≤ 1`, and
returns a filter exactly when `n > 0` and `mn > 1`. -/
theorem construction_rejects (n mn : Nat) :
    (bloom_new n mn = none ↔ n = 0 ∨ mn ≤ 1) ∧
      ((∃ bloom, bloom_new n mn = some bloom) ↔ 0 < n ∧ 1 < mn) := by
  by_cases hn : 0 < n
  · by_cases hmn : 1 < mn
    · have h := bloom_new_eq n mn hn hmn
      constructor
      · constructor
        · intro hnone
          rw [hnone] at h
          cases h
        · intro hbad
          omega
      · constructor
        · intro _
          exact ⟨hn, hmn⟩
        · intro _
          exact ⟨_, h⟩
    · have h : bloom_new n mn = none := by
        unfold bloom_new
        rw [if_neg (not_not_intro hn), if_pos hmn]
      constructor
      · constructor
        · intro _
          exact Or.inr (by omega)
        · intro _
          exact h
      · constructor
        · rintro ⟨bloom, hsome⟩
          rw [h] at hsome
          cases hsome
        · rintro ⟨_, h1⟩
          exact absurd h1 hmn
  · have h : bloom_new n mn = none := by
      unfold bloom_new
      rw [if_pos hn]
    constructor
    · constructor
      · intro _
        exact Or.inl (by omega)
      · intro _
        exact h
    · constructor
      · rintro ⟨bloom, hsome⟩
        rw [h] at hsome
        cases hsome
      · rintro ⟨h0, _⟩
        exact absurd h0 hn

theorem round_log2_32 : round_log2 32 = 5 := by
  simp [round_log2, Nat.log]

theorem bloom_new_1_2 : bloom_new 1 2 = some ⟨1, 16, 5, [0]⟩ := by
  rw [bloom_new_eq 1 2 (by decide) (by decide)]
  have h : round_log2 (2 * (2 * 8 % 2 ^ 32) % 2 ^ 32) = 5 := round_log2_32
  rw [h]
  rfl

/-- **C13** Single-bit boundary.  `bloom_new(1, 2)` returns a filter with
`m = 1` (and `k = 5`, one storage slot); for every key and every round the
index is 0; `bloom_set` of any key leaves the single slot with bit 0 set; and
after `bloom_set` of any key `a`, `bloom_isset` of any key `b` returns 1. -/
theorem single_bit_filter :
    ∃ bloom, bloom_new 1 2 = some bloom ∧ bloom.m = 1 ∧
      (∀ (char_signed : Bool) (key : List Byte) (n : Nat),
        (s_djb char_signed key + n * s_murmur3 key (s_djb char_signed key))
          % 2 ^ 32 % bloom.m = 0) ∧
      (∀ (char_signed : Bool) (a : List Byte), (bloom_set char_signed bloom a).b = [1]) ∧
      (∀ (char_signed : Bool) (a b : List Byte),
        bloom_isset char_signed (bloom_set char_signed bloom a) b = 1) := by
  refine ⟨_, bloom_new_1_2, rfl, ?_, ?_, ?_⟩
  · intro cs key n
    exact Nat.mod_one _
  · intro cs a
    have hidx : ∀ h1 h2 n, bloom_index 1 h1 h2 n = 0 := by
      intro h1 h2 n
      unfold bloom_index
      exact Nat.mod_one _
    simp [bloom_set, bloom_set_loop, hidx, bloom_or, bloom_slot, bloom_mask, sizeof_int]
  · intro cs a b
    rw [bloom_isset_eq_one_iff]
    intro j hj
    have hidx : ∀ h1 h2 n, bloom_index 1 h1 h2 n = 0 := by
      intro h1 h2 n
      unfold bloom_index
      exact Nat.mod_one _
    rw [bloom_set_m]
    show bloom_bit _ (bloom_index 1 _ _ j) = true
    rw [hidx]
    have h0 := bloom_bit_set_round cs ⟨1, 16, 5, [0]⟩ a (by decide) (by decide) 0 (by decide)
    rw [show bloom_index (⟨1, 16, 5, [0]⟩ : bloom_t).m (s_djb cs a)
      (s_murmur3 a (s_djb cs a)) 0 = 0 from hidx _ _ _] at h0
    exact h0

/-! ## Frame, addressing and bounds -/

theorem slot_offset_injective (i j : Nat) (hs : i / 4 * 8 = j / 4 * 8)
    (hp : i % 4 * 8 = j % 4 * 8) : i = j := by
  omega

/-- **C14** Insert touches only the derived bits.  `bloom_set(filter, key)`
leaves `m`, `mn`, `k` and the number of storage slots unchanged, and a storage
bit (bit `p` of slot `w`) that none of the `k` indices
`((h1 + n*h2) mod 2^32) mod m`, `n < k`, addresses keeps its value; so does the
bit of every index `i` different from those `k` indices. -/
theorem set_frame (char_signed : Bool) (bloom : bloom_t) (key : List Byte) :
    (bloom_set char_signed bloom key).m = bloom.m ∧
      (bloom_set char_signed bloom key).mn = bloom.mn ∧
      (bloom_set char_signed bloom key).k = bloom.k ∧
      (bloom_set char_signed bloom key).b.length = bloom.b.length ∧
      (∀ w p,
        (∀ n, n < bloom.k →
          ¬ ((s_djb char_signed key + n * s_murmur3 key (s_djb char_signed key))
                % 2 ^ 32 % bloom.m / 4 * 8 = w ∧
             (s_djb char_signed key + n * s_murmur3 key (s_djb char_signed key))
                % 2 ^ 32 % bloom.m % 4 * 8 = p)) →
        ((bloom_set char_signed bloom key).b.getD w 0).testBit p
          = (bloom.b.getD w 0).testBit p) ∧
      (∀ i,
        (∀ n, n < bloom.k →
          i ≠ (s_djb char_signed key + n * s_murmur3 key (s_djb char_signed key))
                % 2 ^ 32 % bloom.m) →
        bloom_bit (bloom_set char_signed bloom key) i = bloom_bit bloom i) := by
  have hraw : ∀ w p,
      (∀ n, n < bloom.k →
        ¬ ((s_djb char_signed key + n * s_murmur3 key (s_djb char_signed key))
              % 2 ^ 32 % bloom.m / 4 * 8 = w ∧
           (s_djb char_signed key + n * s_murmur3 key (s_djb char_signed key))
              % 2 ^ 32 % bloom.m % 4 * 8 = p)) →
      ((bloom_set char_signed bloom key).b.getD w 0).testBit p
        = (bloom.b.getD w 0).testBit p := by
    intro w p hfree
    rw [Bool.eq_iff_iff, testBit_bloom_set]
    constructor
    · rintro (hb | ⟨_, j, hj, hs, hp⟩)
      · exact hb
      · rw [bloom_index_eq] at hs hp
        exact absurd ⟨hs, hp⟩ (hfree j hj)
    · intro hb
      exact Or.inl hb
  refine ⟨rfl, rfl, rfl, bloom_set_length _ _ _, hraw, ?_⟩
  intro i hne
  unfold bloom_bit
  apply hraw
  rintro n hn ⟨hs, hp⟩
  exact hne n hn (slot_offset_injective _ _ hs hp).symm

theorem set_frame_witness :
    ((bloom_set true ⟨3, 16, 5, [0, 0, 0, 0, 0]⟩ [65]).b.getD 1 0).testBit 0
      = ((⟨3, 16, 5, [0, 0, 0, 0, 0]⟩ : bloom_t).b.getD 1 0).testBit 0 :=
  (set_frame true ⟨3, 16, 5, [0, 0, 0, 0, 0]⟩ [65]).2.2.2.2.1 1 0 (by
    intro n _ h
    omega)

/-! ## The false-positive estimate -/

/-- **C15** The false-positive estimate is a probability: for a filter with
`k ≥ 1` and stored ratio `mn > 0`, `bloom_fp`, read as the real-valued
expression `(1 - e^(-k/mn))^k`, lies in `[0, 1]`. -/
theorem bloom_fp_unit_interval (bloom : bloom_t) (hk : 1 ≤ bloom.k) (hmn : 0 < bloom.mn) :
    bloom_fp bloom = (1 - Real.exp (-((bloom.k : ℝ) / (bloom.mn : ℝ)))) ^ bloom.k ∧
      0 ≤ bloom_fp bloom ∧ bloom_fp bloom ≤ 1 := by
  have hexpr : (-1.0 * (bloom.k : ℝ) / (bloom.mn : ℝ)) = -((bloom.k : ℝ) / (bloom.mn : ℝ)) := by
    norm_num
    ring
  have hq : (0 : ℝ) ≤ (bloom.k : ℝ) / (bloom.mn : ℝ) := by positivity
  have hle : Real.exp (-((bloom.k : ℝ) / (bloom.mn : ℝ))) ≤ 1 := by
    rw [Real.exp_le_one_iff]
    linarith
  have hpos : 0 < Real.exp (-((bloom.k : ℝ) / (bloom.mn : ℝ))) := Real.exp_pos _
  unfold bloom_fp
  rw [hexpr]
  refine ⟨rfl, ?_, ?_⟩
  · apply pow_nonneg
    linarith
  · apply pow_le_one₀
    · linarith
    · linarith

theorem bloom_fp_unit_interval_witness :
    bloom_fp ⟨100000, 24, 6, []⟩
        = (1 - Real.exp (-(((⟨100000, 24, 6, []⟩ : bloom_t).k : ℝ)
            / ((⟨100000, 24, 6, []⟩ : bloom_t).mn : ℝ))))
          ^ (⟨100000, 24, 6, []⟩ : bloom_t).k ∧
      0 ≤ bloom_fp ⟨100000, 24, 6, []⟩ ∧ bloom_fp ⟨100000, 24, 6, []⟩ ≤ 1 :=
  bloom_fp_unit_interval ⟨100000, 24, 6, []⟩ (by decide) (by decide)

/-! ## Storage size, addressing and bounds -/

theorem bloom_alloc_size_eq (n : Nat) : bloom_alloc_size n = 8 + 8 * n := by
  unfold bloom_alloc_size sizeof_bloom_t sizeof_int
  omega

/-- **C16** (failing input) For `n = 32` the size passed to `calloc` is
`8 + 8 * 32 = 264` bytes: 64 `int` slots beyond `sizeof(bloom_t)`, 63 whole
slots beyond the 12-byte header, and the filter `bloom_new(32, 2)` has 63
slots, while `ceil(32 / 32) = 1`. -/
theorem storage_size_mismatch :
    bloom_alloc_size 32 = 264 ∧
      (bloom_alloc_size 32 - sizeof_bloom_t) / sizeof_int = 64 ∧
      bloom_slots 32 = 63 ∧
      (bloom_new 32 2).map (fun bloom => bloom.b.length) = some 63 ∧
      (32 + 31) / 32 = 1 := by
  decide

/-- **C17** Bit addressing is injective.  Index `i` is addressed at slot
`(i / 4) * 8` with mask `1 << ((i % 4) * 8)`; for `i ≠ j` the pairs (slot, mask)
differ, and the statement `b[..] |= ..` for index `i` leaves the test for index
`j` unchanged. -/
theorem bit_addressing_injective (i j : Nat) (hij : i ≠ j) :
    bloom_slot i = i / 4 * 8 ∧ bloom_mask i = 1 <<< (i % 4 * 8) ∧
      (bloom_slot i, bloom_mask i) ≠ (bloom_slot j, bloom_mask j) ∧
      ∀ b : List Nat, bloom_test (bloom_or b i) j = bloom_test b j := by
  refine ⟨rfl, rfl, ?_, ?_⟩
  · intro h
    rw [Prod.mk.injEq, bloom_mask_eq, bloom_mask_eq] at h
    obtain ⟨hs, hm⟩ := h
    have hp : i % sizeof_int * 8 = j % sizeof_int * 8 :=
      Nat.pow_right_injective (Nat.le_refl 2) hm
    exact hij (slot_offset_injective i j hs hp)
  · intro b
    rw [bloom_test_eq, bloom_test_eq, Bool.eq_iff_iff, testBit_bloom_or]
    constructor
    · rintro (hb | ⟨_, hs, hp⟩)
      · exact hb
      · exact absurd (slot_offset_injective i j hs hp) hij
    · intro hb
      exact Or.inl hb

theorem bit_addressing_injective_witness :
    bloom_slot 0 = 0 / 4 * 8 ∧ bloom_mask 0 = 1 <<< (0 % 4 * 8) ∧
      (bloom_slot 0, bloom_mask 0) ≠ (bloom_slot 1, bloom_mask 1) ∧
      ∀ b : List Nat, bloom_test (bloom_or b 0) 1 = bloom_test b 1 :=
  bit_addressing_injective 0 1 (by decide)

/-- **C18** Storage accesses stay inside the allocation.  For `n > 0` and a bit
index `i < n`, the `int` slot `(i / 4) * 8` ends inside the block of
`8 + 8 * n` bytes that `bloom_new(n, mn)` allocates:
`12 + 4 * ((i / 4) * 8 + 1) ≤ 8 + 8 * n`; it is one of the slots of the filter
that `bloom_new(n, mn)` returns. -/
theorem accesses_in_bounds (n mn i : Nat) (hn : 0 < n) (hmn : 1 < mn) (hi : i < n) :
    12 + 4 * (i / 4 * 8 + 1) ≤ 8 + 8 * n ∧
      bloom_alloc_size n = 8 + 8 * n ∧
      offsetof_b + sizeof_int * (bloom_slot i + 1) ≤ bloom_alloc_size n ∧
      ∃ bloom, bloom_new n mn = some bloom ∧ bloom_slot i < bloom.b.length := by
  refine ⟨by omega, bloom_alloc_size_eq n, ?_, _, bloom_new_eq n mn hn hmn, ?_⟩
  · rw [bloom_alloc_size_eq]
    unfold offsetof_b sizeof_int bloom_slot sizeof_int
    omega
  · show bloom_slot i < (List.replicate (bloom_slots n) 0).length
    rw [List.length_replicate]
    exact bloom_slot_lt n i hi

theorem accesses_in_bounds_witness :
    12 + 4 * (99999 / 4 * 8 + 1) ≤ 8 + 8 * 100000 ∧
      bloom_alloc_size 100000 = 8 + 8 * 100000 ∧
      offsetof_b + sizeof_int * (bloom_slot 99999 + 1) ≤ bloom_alloc_size 100000 ∧
      ∃ bloom, bloom_new 100000 3 = some bloom ∧ bloom_slot 99999 < bloom.b.length :=
  accesses_in_bounds 100000 3 99999 (by decide) (by decide) (by decide)

/-! ## Reads of the key -/

theorem byte_read_eq (str : List Byte) (j : Nat) (h : j < str.length) :
    byte_read str j = some (byte_at str j) := by
  unfold byte_read byte_at
  simp [List.getD_eq_getElem?_getD, List.getElem?_eq_getElem h]

theorem head_read_eq (str : List Byte) (i : Nat) (h : 4 * i + 3 < str.length) :
    head_read str i = some (head str i) := by
  unfold head_read head
  rw [byte_read_eq str (4 * i) (by omega), byte_read_eq str (4 * i + 1) (by omega),
    byte_read_eq str (4 * i + 2) (by omega), byte_read_eq str (4 * i + 3) h]

theorem s_murmur3_loop_read_eq (str : List Byte) (nhead : Nat) (hn : 4 * nhead ≤ str.length)
    (fuel i hash : Nat) :
    s_murmur3_loop_read str nhead fuel i hash = some (s_murmur3_loop str nhead fuel i hash) := by
  induction fuel generalizing i hash with
  | zero => rfl
  | succ f ih =>
    simp only [s_murmur3_loop_read, s_murmur3_loop]
    by_cases hi : i < nhead
    · rw [if_pos hi, if_pos hi, head_read_eq str i (by omega)]
      exact ih _ _
    · rw [if_neg hi, if_neg hi]

theorem and_three_eq_mod (x : Nat) : x &&& 3 = x % 4 := by
  have h := Nat.and_pow_two_sub_one_eq_mod x 2
  simpa using h

theorem tail_read_eq (str : List Byte) (j : Nat) (h : j < str.length % 4) :
    tail_read str j = some (tail str j) := by
  unfold tail_read tail
  exact byte_read_eq str _ (by omega)

theorem s_murmur3_tail_read_eq (str : List Byte) (hash : Nat) :
    s_murmur3_tail_read str hash = some (s_murmur3_tail str hash) := by
  unfold s_murmur3_tail_read s_murmur3_tail
  simp only [and_three_eq_mod]
  by_cases h3 : str.length % 4 = 3
  · rw [tail_read_eq str 2 (by omega), tail_read_eq str 1 (by omega),
      tail_read_eq str 0 (by omega)]
    simp [h3]
  · by_cases h2 : str.length % 4 = 2
    · rw [tail_read_eq str 1 (by omega), tail_read_eq str 0 (by omega)]
      simp [h2]
    · by_cases h1 : str.length % 4 = 1
      · rw [tail_read_eq str 0 (by omega)]
        simp [h1]
      · simp [h3, h2, h1]

/-- **C19** `s_murmur3` reads only bytes of its input.  With every read of the
key checked against `len`, `s_murmur3` still returns its result: no read is
out of range.  The offsets read are `4i .. 4i+3` for the visited `i < len / 4`
and `len / 4 + j` for `j < len mod 4`, all smaller than `len`. -/
theorem s_murmur3_reads_in_bounds (str : List Byte) (seed : Nat) :
    s_murmur3_read str seed = some (s_murmur3 str seed) ∧
      (∀ i, i < str.length / 4 → 4 * i + 3 < str.length) ∧
      (∀ j, j < str.length % 4 → str.length / 4 + j < str.length) := by
  refine ⟨?_, ?_, ?_⟩
  · unfold s_murmur3_read s_murmur3
    simp only []
    rw [s_murmur3_loop_read_eq str (str.length / 4) (by omega)]
    simp only []
    rw [s_murmur3_tail_read_eq]
  · intro i hi
    omega
  · intro j hj
    omega

/-! ## Order of inserts -/

theorem foldl_set_m (cs : Bool) (keys : List (List Byte)) (bloom : bloom_t) :
    (keys.foldl (bloom_set cs) bloom).m = bloom.m := by
  induction keys generalizing bloom with
  | nil => rfl
  | cons k0 rest ih => rw [List.foldl_cons, ih, bloom_set_m]

theorem foldl_set_mn (cs : Bool) (keys : List (List Byte)) (bloom : bloom_t) :
    (keys.foldl (bloom_set cs) bloom).mn = bloom.mn := by
  induction keys generalizing bloom with
  | nil => rfl
  | cons k0 rest ih => rw [List.foldl_cons, ih, bloom_set_mn]

theorem foldl_set_k (cs : Bool) (keys : List (List Byte)) (bloom : bloom_t) :
    (keys.foldl (bloom_set cs) bloom).k = bloom.k := by
  induction keys generalizing bloom with
  | nil => rfl
  | cons k0 rest ih => rw [List.foldl_cons, ih, bloom_set_k]

theorem foldl_set_length (cs : Bool) (keys : List (List Byte)) (bloom : bloom_t) :
    (keys.foldl (bloom_set cs) bloom).b.length = bloom.b.length := by
  induction keys generalizing bloom with
  | nil => rfl
  | cons k0 rest ih => rw [List.foldl_cons, ih, bloom_set_length]

/-- Bits of the storage after a sequence of `bloom_set` calls: the old bits and
the bits of the rounds of every inserted key. -/
theorem testBit_foldl_set (cs : Bool) (keys : List (List Byte)) (bloom : bloom_t) (w p : Nat) :
    ((keys.foldl (bloom_set cs) bloom).b.getD w 0).testBit p = true ↔
      (bloom.b.getD w 0).testBit p = true ∨
        (w < bloom.b.length ∧ ∃ key, key ∈ keys ∧ ∃ j, j < bloom.k ∧
          bloom_slot (bloom_index bloom.m (s_djb cs key) (s_murmur3 key (s_djb cs key)) j) = w ∧
          bloom_index bloom.m (s_djb cs key) (s_murmur3 key (s_djb cs key)) j
            % sizeof_int * 8 = p) := by
  induction keys generalizing bloom with
  | nil =>
    constructor
    · intro hb
      exact Or.inl hb
    · rintro (hb | ⟨_, key, hmem, _⟩)
      · exact hb
      · cases hmem
  | cons k0 rest ih =>
    rw [List.foldl_cons, ih, bloom_set_m, bloom_set_k, bloom_set_length, testBit_bloom_set]
    constructor
    · rintro ((hb | ⟨hl, j, hj, hs, hp⟩) | ⟨hl, key, hmem, hrest⟩)
      · exact Or.inl hb
      · exact Or.inr ⟨hl, k0, List.mem_cons_self k0 rest, j, hj, hs, hp⟩
      · exact Or.inr ⟨hl, key, List.mem_cons_of_mem k0 hmem, hrest⟩
    · rintro (hb | ⟨hl, key, hmem, hrest⟩)
      · exact Or.inl (Or.inl hb)
      · rcases List.mem_cons.mp hmem with rfl | hmem
        · obtain ⟨j, hj, hs, hp⟩ := hrest
          exact Or.inl (Or.inr ⟨hl, j, hj, hs, hp⟩)
        · exact Or.inr ⟨hl, key, hmem, hrest⟩

theorem foldl_set_congr (cs : Bool) (bloom : bloom_t) (l1 l2 : List (List Byte))
    (h : ∀ key, key ∈ l1 ↔ key ∈ l2) :
    l1.foldl (bloom_set cs) bloom = l2.foldl (bloom_set cs) bloom := by
  apply bloom_t_ext
  · rw [foldl_set_m, foldl_set_m]
  · rw [foldl_set_mn, foldl_set_mn]
  · rw [foldl_set_k, foldl_set_k]
  · apply slots_ext
    · rw [foldl_set_length, foldl_set_length]
    · intro w p
      rw [Bool.eq_iff_iff, testBit_foldl_set, testBit_foldl_set]
      constructor
      · rintro (hb | ⟨hl, key, hmem, hrest⟩)
        · exact Or.inl hb
        · exact Or.inr ⟨hl, key, (h key).mp hmem, hrest⟩
      · rintro (hb | ⟨hl, key, hmem, hrest⟩)
        · exact Or.inl hb
        · exact Or.inr ⟨hl, key, (h key).mpr hmem, hrest⟩

/-- **C20** Inserts commute.  `bloom_set(a)` followed by `bloom_set(b)` yields
the same filter state (`m`, `mn`, `k` and every storage slot) as `bloom_set(b)`
followed by `bloom_set(a)`, and two sequences of inserts with the same set of
keys, whatever their order and multiplicities, yield the same state. -/
theorem set_commute (char_signed : Bool) (bloom : bloom_t) (a b : List Byte) :
    bloom_set char_signed (bloom_set char_signed bloom a) b
        = bloom_set char_signed (bloom_set char_signed bloom b) a ∧
      ∀ l1 l2 : List (List Byte), (∀ key, key ∈ l1 ↔ key ∈ l2) →
        l1.foldl (bloom_set char_signed) bloom = l2.foldl (bloom_set char_signed) bloom := by
  refine ⟨?_, fun l1 l2 h => foldl_set_congr char_signed bloom l1 l2 h⟩
  have h := foldl_set_congr char_signed bloom [a, b] [b, a] (by
    intro key
    simp only [List.mem_cons, List.mem_singleton, List.not_mem_nil, or_false]
    exact Or.comm)
  exact h

theorem set_commute_witness :
    ([[65], [66], [65]] : List (List Byte)).foldl (bloom_set true) ⟨3, 16, 5, [0, 0, 0, 0, 0]⟩
      = ([[66], [65]] : List (List Byte)).foldl (bloom_set true) ⟨3, 16, 5, [0, 0, 0, 0, 0]⟩ :=
  (set_commute true ⟨3, 16, 5, [0, 0, 0, 0, 0]⟩ [65] [66]).2 [[65], [66], [65]] [[66], [65]] (by
    intro key
    simp only [List.mem_cons, List.mem_singleton, List.not_mem_nil, or_false]
    constructor
    · rintro (h | h | h)
      · exact Or.inr h
      · exact Or.inl h
      · exact Or.inr h
    · rintro (h | h)
      · exact Or.inr (Or.inl h)
      · exact Or.inl h)

end Bloom
